import Mathlib

/-!
Verification development for the configuration translation module
(`packages/python/translate.py`): a codec between Tcl-style "tagged list"
textual values and in-memory values, a nested-dictionary merge engine, and
the config-input aggregation routine.  Every definition is a shallow
embedding of the corresponding Python function, translated line by line.
Python dicts are modelled as insertion-ordered association lists with
unique keys; Python strings as Lean `String` / `List Char`.
-/

namespace Translate

/-- The opening brace character (written via its code point so that the
source text stays free of literal braces). -/
def lbrace : Char := Char.ofNat 123

/-- The closing brace character. -/
def rbrace : Char := Char.ofNat 125

/-- Whitespace predicate used by Python's `str.strip()` / `str.split()`,
restricted to the ASCII whitespace characters that can occur in this
repository's data (space, tab, newline, carriage return, vertical tab,
form feed). -/
def isPySpace (c : Char) : Bool :=
  c = ' ' || c = '\t' || c = '\n' || c = '\r' || c = Char.ofNat 11 || c = Char.ofNat 12

/-- `str.strip()` on a character list: drop leading and trailing whitespace. -/
def pyStripL (l : List Char) : List Char :=
  ((l.dropWhile isPySpace).reverse.dropWhile isPySpace).reverse

/-- `str.strip()` on a `String`. -/
def pyStrip (s : String) : String := String.mk (pyStripL s.data)

/-- Helper for `pySplit`: accumulates the current token. -/
def pySplitAux : List Char → List Char → List String
  | [], cur => if cur = [] then [] else [String.mk cur]
  | c :: cs, cur =>
      if isPySpace c then
        if cur = [] then pySplitAux cs [] else String.mk cur :: pySplitAux cs []
      else pySplitAux cs (cur ++ [c])

/-- Python's no-argument `str.split()`: split on runs of whitespace,
discarding empty pieces. -/
def pySplit (l : List Char) : List String := pySplitAux l []

/-- A Python value handled by the codec: a string (`Scalar`) or a
(possibly nested) list of values, exactly the `Union[str, List[Any]]`
domain of `tcl_value2python_value` / `python_value2tcl_value`. -/
inductive Value where
  | scalar : String → Value
  | list : List Value → Value

mutual

/-- Decidable equality for `Value` (the nested inductive defeats automatic
derivation). -/
def Value.decEq : (a b : Value) → Decidable (a = b)
  | .scalar a, .scalar b =>
      if h : a = b then isTrue (by rw [h]) else isFalse (by intro hh; cases hh; exact h rfl)
  | .scalar _, .list _ => isFalse (fun h => Value.noConfusion h)
  | .list _, .scalar _ => isFalse (fun h => Value.noConfusion h)
  | .list a, .list b =>
      match Value.decEqList a b with
      | isTrue h => isTrue (by rw [h])
      | isFalse h => isFalse (by intro hh; cases hh; exact h rfl)

/-- Decidable equality for lists of `Value`s. -/
def Value.decEqList : (a b : List Value) → Decidable (a = b)
  | [], [] => isTrue rfl
  | [], _ :: _ => isFalse (fun h => List.noConfusion h)
  | _ :: _, [] => isFalse (fun h => List.noConfusion h)
  | x :: xs, y :: ys =>
      match Value.decEq x y, Value.decEqList xs ys with
      | isTrue h1, isTrue h2 => isTrue (by rw [h1, h2])
      | isFalse h1, _ => isFalse (by intro hh; cases hh; exact h1 rfl)
      | _, isFalse h2 => isFalse (by intro hh; cases hh; exact h2 rfl)

end

instance : DecidableEq Value := Value.decEq

/-- The flush step of `parse_list` (translate.py lines 54-55, 61-62, 66,
73-74): if the accumulated character buffer `current` is non-empty, join
it, strip it, and append it to `result` as one token. -/
def flushTok (current : List Char) (result : List Value) : List Value :=
  if current = [] then result
  else result ++ [Value.scalar (String.mk (pyStripL current))]

/-- The inner recursive scanner `parse_list(s, start)` of
`tcl_value2python_value` (translate.py lines 44-75), with an explicit fuel
parameter standing in for the `while` loop; `none` is returned only on fuel
exhaustion (the totality theorem shows enough fuel always exists).
Returned pair: the parsed tokens of the current list level and the index
just past the character that ended the level. -/
def parse_list (s : List Char) : Nat → Nat → List Char → List Value → Option (List Value × Nat)
  | 0, _, _, _ => none
  | fuel + 1, i, current, result =>
    match s[i]? with
    | none => some (flushTok current result, i)
    | some c =>
      if c = lbrace then
        match parse_list s fuel (i + 1) [] [] with
        | none => none
        | some (nested, newI) =>
            parse_list s fuel (newI + 1) [] (flushTok current result ++ [Value.list nested])
      else if c = rbrace then some (flushTok current result, i + 1)
      else if c = ' ' ∧ current ≠ [] then parse_list s fuel (i + 1) [] (flushTok current result)
      else parse_list s fuel (i + 1) (current ++ [c]) result

/-- `tcl_value2python_value(value)` (translate.py lines 9-84) restricted to
string input (the tuple branch serves only the live Tcl interpreter):
strip the input; empty input stays the empty string; brace-free input is
returned unchanged as a scalar; otherwise the input is scanned by
`parse_list`, starting at index 1 when the stripped text both starts with
an opening brace and ends with a closing brace, at index 0 otherwise. -/
def tcl_value2python_value (s : String) : Option Value :=
  let t := pyStripL s.data
  if t = [] then some (Value.scalar "")
  else if lbrace ∉ t ∧ rbrace ∉ t then some (Value.scalar (String.mk t))
  else if t.head? = some lbrace ∧ t.getLast? = some rbrace then
    (parse_list t (t.length + 1) 1 [] []).map (fun p => Value.list p.1)
  else
    (parse_list t (t.length + 1) 0 [] []).map (fun p => Value.list p.1)

/-- The brace-splitting loop of `python_value2tcl_value` for scalars that
contain braces (translate.py lines 127-151): scan the characters with a
brace-nesting counter; when the counter returns to zero the accumulated
group interior (which includes the group's opening brace, since the `'{'`
branch falls through to `current += char`) is whitespace-normalised into a
`[list ...]` part; bare text at depth 0 is split on whitespace. -/
def braceSplitLoop : List Char → Int → List Char → List String → List String
  | [], _, current, parts =>
      if pyStripL current = [] then parts else parts ++ pySplit (pyStripL current)
  | c :: cs, level, current, parts =>
      if c = lbrace then
        let flush := level = 0 ∧ current ≠ []
        let parts2 := if flush then parts ++ pySplit (pyStripL current) else parts
        let cur2 := if flush then ([] : List Char) else current
        braceSplitLoop cs (level + 1) (cur2 ++ [c]) parts2
      else if c = rbrace then
        if level - 1 = 0 then
          let inner := pyStripL current
          let parts2 :=
            if inner = [] then parts
            else parts ++ ["[list " ++ " ".intercalate (pySplit inner) ++ "]"]
          braceSplitLoop cs (level - 1) [] parts2
        else braceSplitLoop cs (level - 1) (current ++ [c]) parts
      else braceSplitLoop cs level (current ++ [c]) parts

mutual

/-- `python_value2tcl_value(value)` (translate.py lines 86-165) restricted
to the string/list domain: the empty string and the empty list both render
as the two-character token `""`; a non-empty list renders as a
`[list ...]` constructor over its rendered elements; a scalar containing a
brace goes through the brace-splitting approximation; a scalar containing
a space is wrapped as a one-element list constructor; any other scalar is
emitted unchanged. -/
def python_value2tcl_value : Value → String
  | Value.scalar s =>
      if s = "" then "\"\""
      else if lbrace ∈ s.data ∨ rbrace ∈ s.data then
        "[list " ++ " ".intercalate (braceSplitLoop s.data 0 [] []) ++ "]"
      else if ' ' ∈ s.data then "[list " ++ s ++ "]"
      else s
  | Value.list items =>
      if items.isEmpty then "\"\""
      else "[list " ++ " ".intercalate (renderItems items) ++ "]"

/-- The element loop of `python_value2tcl_value` for lists (translate.py
lines 108-121): nested lists recurse; a string element containing a space
or a brace is wrapped in literal braces; an empty string element renders
as `""`; any other string element is emitted unchanged. -/
def renderItems : List Value → List String
  | [] => []
  | item :: rest =>
      (match item with
       | Value.list l => python_value2tcl_value (Value.list l)
       | Value.scalar s =>
           if ' ' ∈ s.data ∨ lbrace ∈ s.data ∨ rbrace ∈ s.data then
             Char.toString lbrace ++ s ++ Char.toString rbrace
           else if s = "" then "\"\""
           else s) :: renderItems rest

end

/-- A node of a configuration tree: at any key a Python dict holds either a
terminal value (`leaf`) or a nested dict (`node`), mirroring
`Tree = mapping from string to (Value | Tree)`.  The leaf payload is kept
abstract (`α`) because `merge_dicts`/`set_nested_dict` inspect values only
through `isinstance(·, dict)`. -/
inductive Tree (α : Type) where
  | leaf : α → Tree α
  | node : List (String × Tree α) → Tree α

/-- A Python dict modelled as an insertion-ordered association list. -/
abbrev AList (α : Type) := List (String × Tree α)

/-- Python dict read `d[k]` / `k in d`: first (unique) binding of the key. -/
def alGet {κ β : Type} [DecidableEq κ] : List (κ × β) → κ → Option β
  | [], _ => none
  | (k, v) :: rest, key => if k = key then some v else alGet rest key

/-- Python dict write `d[k] = v`: update the binding in place if the key is
present (keeping its position), otherwise append a new binding. -/
def alSet {κ β : Type} [DecidableEq κ] : List (κ × β) → κ → β → List (κ × β)
  | [], key, val => [(key, val)]
  | (k, v) :: rest, key, val =>
      if k = key then (k, val) :: rest else (k, v) :: alSet rest key val

/-- The keys of a dict, in insertion order. -/
def alKeys {κ β : Type} (d : List (κ × β)) : List κ := d.map Prod.fst

/-- The defining invariant of a Python dict: its keys are distinct. -/
def nodupKeys {κ β : Type} (d : List (κ × β)) : Prop := (alKeys d).Nodup

instance {κ β : Type} [DecidableEq κ] (d : List (κ × β)) : Decidable (nodupKeys d) :=
  inferInstanceAs (Decidable (alKeys d).Nodup)

/-- `merge_dicts(dict1, dict2, overwrite)` (translate.py lines 371-396):
start from a copy of `dict1` and fold over `dict2`'s items; when both
sides hold a dict at a key, merge recursively with the same flag;
otherwise replace when the key is absent or `overwrite` is true, and keep
the existing entry when the key is present and `overwrite` is false. -/
def merge_dicts {α : Type} : AList α → AList α → Bool → AList α
  | d1, [], _ => d1
  | d1, (k, Tree.node s2) :: rest, ow =>
      merge_dicts
        (match alGet d1 k with
         | some (Tree.node s1) => alSet d1 k (Tree.node (merge_dicts s1 s2 ow))
         | some (Tree.leaf _) => if ow then alSet d1 k (Tree.node s2) else d1
         | none => alSet d1 k (Tree.node s2)) rest ow
  | d1, (k, Tree.leaf x) :: rest, ow =>
      merge_dicts
        (match alGet d1 k with
         | some _ => if ow then alSet d1 k (Tree.leaf x) else d1
         | none => alSet d1 k (Tree.leaf x)) rest ow

/-- The value of the merged dict at one key, as a function of the two
operands' values there: the per-key contract of `merge_dicts`. -/
def mergeLookupSpec {α : Type} (ow : Bool) : Option (Tree α) → Option (Tree α) → Option (Tree α)
  | none, none => none
  | some b, none => some b
  | none, some v => some v
  | some (Tree.node s1), some (Tree.node s2) => some (Tree.node (merge_dicts s1 s2 ow))
  | some b, some v => if ow then some v else some b

/-- `set_nested_dict(d, keys, value)` (translate.py lines 167-182), with
`none` standing for the exception Python raises: walking `keys[:-1]` with
`setdefault` crashes as soon as an intermediate segment holds a terminal
(non-dict) value, and `keys[-1]` on an empty path is an index error;
otherwise missing intermediate dicts are created and the leaf is set. -/
def set_nested_dict {α : Type} : AList α → List String → Tree α → Option (AList α)
  | _, [], _ => none
  | d, [k], v => some (alSet d k v)
  | d, k :: rest, v =>
      match alGet d k with
      | some (Tree.node sub) => (set_nested_dict sub rest v).map (fun s => alSet d k (Tree.node s))
      | some (Tree.leaf _) => none
      | none => (set_nested_dict [] rest v).map (fun s => alSet d k (Tree.node s))

/-- Read a whole key path out of a nested dict (used to state what
`set_nested_dict` wrote and what it left alone). -/
def lookupPath {α : Type} : AList α → List String → Option (Tree α)
  | _, [] => none
  | d, [k] => alGet d k
  | d, k :: rest =>
      match alGet d k with
      | some (Tree.node sub) => lookupPath sub rest
      | _ => none

/-- The walk of `set_nested_dict` over `keys[:-1]` succeeds (no
intermediate segment holds a terminal value): `false` exactly when Python
raises. -/
def conflictFree {α : Type} : AList α → List String → Bool
  | _, [] => true
  | _, [_] => true
  | d, k :: rest =>
      match alGet d k with
      | some (Tree.node sub) => conflictFree sub rest
      | some (Tree.leaf _) => false
      | none => conflictFree ([] : AList α) rest

/-- The derived source label of the `i`-th of `n` literal-dict inputs in
`process_config_inputs` (translate.py lines 428-432): two sequential `if`
statements, so the last-input rule overrides the first-input rule. -/
def labelFor (i n : Nat) : String :=
  let s := if i = 0 then "Basic Appendix info" else "Appendix info apply"
  if i = n - 1 then "Fixed Appendix info" else s

/-- The input loop of `process_config_inputs` (translate.py lines 423-457)
restricted to literal-dict inputs: store each input's dict under its
derived label, and accumulate `merged_dict = merge_dicts(merged_dict,
current_dict)` when `merged_dict` is non-empty (truthy), seeding it with
the first (non-empty) dict otherwise. -/
def aggLoop {α : Type} (n : Nat) :
    List (AList α) → Nat → AList α → List (String × AList α) → AList α × List (String × AList α)
  | [], _, merged, srcs => (merged, srcs)
  | d :: rest, i, merged, srcs =>
      aggLoop n rest (i + 1)
        (if merged.isEmpty then d else merge_dicts merged d true)
        (alSet srcs (labelFor i n) d)

/-- `process_config_inputs(inputs)` (translate.py lines 398-472) for a list
of literal (in-memory) dict inputs, returning the merged dict and the
per-source dicts (file reading and output writing are external I/O). -/
def process_config_inputs {α : Type} (inputs : List (AList α)) :
    AList α × List (String × AList α) :=
  aggLoop inputs.length inputs 0 [] []

/-- `f'{prefix},{key}' if prefix else key` (translate.py lines 284, 287). -/
def joinKey (pre k : String) : String := if pre = "" then k else pre ++ "," ++ k

/-- The variable-name flattening of `dict_to_tcl.process_dict` (translate.py
lines 289-291): a name containing a comma becomes the Tcl array form
`first(rest,joined,by,commas)`. -/
def flattenName (vn : String) : String :=
  if ',' ∈ vn.data then
    match vn.split (fun c => c = ',') with
    | [] => vn
    | p0 :: restP => p0 ++ "(" ++ ",".intercalate restP ++ ")"
  else vn

/-- One `set` statement line (translate.py line 293). -/
def setLine (pre k : String) (v : Value) : String :=
  "set " ++ flattenName (joinKey pre k) ++ " " ++ python_value2tcl_value v

/-- The loop body of `dict_to_tcl.process_dict` (translate.py lines
279-294): nested dicts recurse (each recursive call returns its lines
already sorted, line 294), terminal values produce one `set` line. -/
def process_lines : AList Value → String → List String
  | [], _ => []
  | (k, Tree.node sub) :: rest, pre =>
      (process_lines sub (joinKey pre k)).mergeSort (fun a b => a ≤ b) ++ process_lines rest pre
  | (k, Tree.leaf v) :: rest, pre => setLine pre k v :: process_lines rest pre

/-- `dict_to_tcl.process_dict(d, prefix)` (translate.py lines 279-294):
collect the lines and return them sorted (`sorted(lines)`, line 294). -/
def process_dict (d : AList Value) (pre : String) : List String :=
  (process_lines d pre).mergeSort (fun a b => a ≤ b)

/-- The body lines `dict_to_tcl` writes when `with_source` is false
(translate.py lines 311-314). -/
def dict_to_tcl_lines (data : AList Value) : List String := process_dict data ""

/-- The per-source sections `dict_to_tcl` writes when `with_source` is true
(translate.py lines 306-310): one block of lines per source dict. -/
def dict_to_tcl_source_sections (data : List (String × AList Value)) : List (List String) :=
  data.map (fun sd => process_dict sd.2 "")

/-!
Heap model of `merge_dicts`, used to state that it never mutates its
arguments.  Python objects live in a heap addressed by `Nat`; a dict
object holds an ordered field list whose values are addresses of other
objects.  `merge_dicts` is re-read as a heap transformer: `result =
dict1.copy()` allocates a fresh dict object, and every `result[key] = ...`
is an in-place store to that fresh object.  The frame theorem then says
the final heap agrees with the initial heap on every initially allocated
address.
-/

/-- A heap object: a terminal value (payload irrelevant to merging) or a
dict with an ordered field list mapping keys to addresses. -/
inductive Obj where
  | leaf : Nat → Obj
  | dict : List (String × Nat) → Obj
deriving DecidableEq

/-- The heap: a finite map from addresses to objects. -/
abbrev Heap := List (Nat × Obj)

/-- Read an address. -/
def hLookup (h : Heap) (a : Nat) : Option Obj := alGet h a

/-- Store to an address (in-place mutation of the object living there). -/
def hSet (h : Heap) (a : Nat) (o : Obj) : Heap := alSet h a o

/-- An address strictly larger than every allocated address: the next
fresh allocation. -/
def freshA (h : Heap) : Nat := h.foldr (fun ao m => max (ao.1 + 1) m) 0

mutual

/-- `merge_dicts(dict1, dict2, overwrite)` as a heap transformer
(translate.py lines 386-396): copy the object at `a1` into a fresh cell
`c` (`result = dict1.copy()`, a shallow copy), run the item loop of
`dict2`'s object over `c`, and return `c`'s address with the final heap.
The fuel decreases on every step (Python's recursion would itself diverge
on a cyclic heap); `none` means stuck or out of fuel. -/
def mergeH : Nat → Heap → Nat → Nat → Bool → Option (Nat × Heap)
  | 0, _, _, _, _ => none
  | fuel + 1, h, a1, a2, ow =>
    match hLookup h a1, hLookup h a2 with
    | some (Obj.dict f1), some (Obj.dict f2) =>
        let c := freshA h
        (mergeLoop fuel (hSet h c (Obj.dict f1)) c f2 ow).map (fun h2 => (c, h2))
    | _, _ => none

/-- The `for key, value in dict2.items()` loop of `merge_dicts` (translate.py
lines 388-394), mutating the result object at address `c`: when both the
current binding of `key` in the result and the incoming value are dicts,
store the address of their recursive merge; otherwise store the incoming
address when the key is absent or `overwrite` is true. -/
def mergeLoop : Nat → Heap → Nat → List (String × Nat) → Bool → Option Heap
  | _, h, _, [], _ => some h
  | 0, _, _, _ :: _, _ => none
  | fuel + 1, h, c, (k, vaddr) :: rest, ow =>
    match hLookup h c with
    | some (Obj.dict cf) =>
      match alGet cf k with
      | some b =>
        match hLookup h b, hLookup h vaddr with
        | some (Obj.dict _), some (Obj.dict _) =>
          match mergeH fuel h b vaddr ow with
          | none => none
          | some (r, h1) =>
            match hLookup h1 c with
            | some (Obj.dict cf1) =>
                mergeLoop fuel (hSet h1 c (Obj.dict (alSet cf1 k r))) c rest ow
            | _ => none
        | _, _ =>
          if ow then mergeLoop fuel (hSet h c (Obj.dict (alSet cf k vaddr))) c rest ow
          else mergeLoop fuel h c rest ow
      | none => mergeLoop fuel (hSet h c (Obj.dict (alSet cf k vaddr))) c rest ow
    | _ => none

end

/-- The base dict of the merge example in the spec and in the docstring of
`merge_dicts`. -/
def exBase : AList Nat := [("a", Tree.leaf 1), ("b", Tree.node [("c", Tree.leaf 2)])]

/-- The incoming dict of the merge example. -/
def exInc : AList Nat := [("b", Tree.node [("d", Tree.leaf 3)]), ("e", Tree.leaf 4)]

/-- The expected result of the merge example. -/
def exOut : AList Nat :=
  [("a", Tree.leaf 1), ("b", Tree.node [("c", Tree.leaf 2), ("d", Tree.leaf 3)]), ("e", Tree.leaf 4)]

/-- The two literal inputs of the aggregation example. -/
def exAggIn : List (AList String) :=
  [[("var1", Tree.leaf "value1"), ("var2", Tree.leaf "value2")],
   [("var2", Tree.leaf "value2b")]]

/-- The initial heap of the no-mutation witness: address 0 a dict, address
1 a terminal, address 2 a second dict. -/
def exHeap : Heap := [(0, Obj.dict [("a", 1)]), (1, Obj.leaf 5), (2, Obj.dict [("b", 1)])]

/-- The heap after merging addresses 0 and 2 of `exHeap`: one fresh cell 3
was allocated, nothing else changed. -/
def exHeapOut : Heap :=
  [(0, Obj.dict [("a", 1)]), (1, Obj.leaf 5), (2, Obj.dict [("b", 1)]),
   (3, Obj.dict [("a", 1), ("b", 1)])]

/-! ### Helper lemmas -/

theorem mem_pyStripL {c : Char} {l : List Char} (h : c ∈ pyStripL l) : c ∈ l := by
  unfold pyStripL at h
  rw [List.mem_reverse] at h
  have h2 := (List.dropWhile_sublist (l := (l.dropWhile isPySpace).reverse) (p := isPySpace)).mem h
  rw [List.mem_reverse] at h2
  exact (List.dropWhile_sublist (l := l) (p := isPySpace)).mem h2

/-- Brace-free input parses to the scalar of its stripped text
(translate.py lines 34-42). -/
theorem parse_nobrace (s : String) (h1 : lbrace ∉ s.data) (h2 : rbrace ∉ s.data) :
    tcl_value2python_value s = some (Value.scalar (pyStrip s)) := by
  have h1' : lbrace ∉ pyStripL s.data := fun hm => h1 (mem_pyStripL hm)
  have h2' : rbrace ∉ pyStripL s.data := fun hm => h2 (mem_pyStripL hm)
  unfold tcl_value2python_value
  by_cases he : pyStripL s.data = []
  · simp [he, pyStrip]
  · simp [he, h1', h2', pyStrip]

/-- A non-empty brace-free space-free scalar renders to itself
(translate.py lines 159-161). -/
theorem render_scalar_plain (s : String) (h0 : s ≠ "") (h1 : lbrace ∉ s.data)
    (h2 : rbrace ∉ s.data) (h3 : ' ' ∉ s.data) :
    python_value2tcl_value (Value.scalar s) = s := by
  unfold python_value2tcl_value
  simp [h0, h1, h2, h3]

/-- A non-empty brace-free scalar containing a space renders to a
one-element list constructor (translate.py lines 155-157). -/
theorem render_scalar_space (s : String) (h0 : s ≠ "") (h1 : lbrace ∉ s.data)
    (h2 : rbrace ∉ s.data) (h3 : ' ' ∈ s.data) :
    python_value2tcl_value (Value.scalar s) = "[list " ++ s ++ "]" := by
  unfold python_value2tcl_value
  simp [h0, h1, h2, h3]

/-! ### C8 -/

/-- C8 (confirmed): `render_value` collapses both empty values to the same
token: the empty scalar and the empty list both render to the literal
two-character string consisting of two double-quote characters. -/
theorem render_empty_collapse :
    python_value2tcl_value (Value.scalar "") = "\"\"" ∧
    python_value2tcl_value (Value.list []) = "\"\"" ∧
    ("\"\"" : String).length = 2 :=
  ⟨rfl, rfl, rfl⟩

/-! ### C2 -/

/-- C2 counterexample: the claim fails as stated on three points.
`parse_value` strips surrounding whitespace, so `" a"` does not come back
unchanged; `render_value(Scalar(""))` is the two-character token `""`, not
`""`'s text `s` itself; and a scalar whose only whitespace is a tab is NOT
wrapped (only the space character `' '` triggers wrapping, translate.py
line 155). -/
theorem parse_nobrace_claim_counterexample :
    tcl_value2python_value " a" = some (Value.scalar "a") ∧
    Value.scalar "a" ≠ Value.scalar " a" ∧
    python_value2tcl_value (Value.scalar "") = "\"\"" ∧ ("\"\"" : String) ≠ "" ∧
    isPySpace '\t' = true ∧ '\t' ∈ ("a\tb" : String).data ∧
    python_value2tcl_value (Value.scalar "a\tb") = "a\tb" :=
  ⟨by decide, by decide, rfl, by decide, by decide, by decide, rfl⟩

/-- C2 (amended): for every brace-free string `s`, `parse_value(s)` is the
scalar of the stripped text (so `s` itself when `s` has no surrounding
whitespace, internal spaces preserved, no splitting); and for non-empty
`s`, `render_value(Scalar(s))` reproduces `s` exactly when `s` contains no
space character, and wraps `s` as a one-element list constructor when it
contains a space. -/
theorem parse_render_nobrace (s : String) (h1 : lbrace ∉ s.data) (h2 : rbrace ∉ s.data) :
    tcl_value2python_value s = some (Value.scalar (pyStrip s)) ∧
    (s ≠ "" → ' ' ∉ s.data → python_value2tcl_value (Value.scalar s) = s) ∧
    (s ≠ "" → ' ' ∈ s.data → python_value2tcl_value (Value.scalar s) = "[list " ++ s ++ "]") :=
  ⟨parse_nobrace s h1 h2, fun h0 h3 => render_scalar_plain s h0 h1 h2 h3,
   fun h0 h3 => render_scalar_space s h0 h1 h2 h3⟩

/-- C2 witness: the amended claim evaluated at `"a b"`. -/
theorem parse_render_nobrace_witness :
    tcl_value2python_value "a b" = some (Value.scalar (pyStrip "a b")) ∧
    python_value2tcl_value (Value.scalar "a b") = "[list " ++ "a b" ++ "]" :=
  ⟨(parse_render_nobrace "a b" (by decide) (by decide)).1,
   (parse_render_nobrace "a b" (by decide) (by decide)).2.2 (by decide) (by decide)⟩

/-! ### C1 -/

/-- C1 counterexample: the round-trip `parse_value(render_value(v)) == v`
fails at `v = Scalar("")` (which renders to the token `""` and parses back
as the scalar consisting of two double-quote characters) and at
`v = List([Scalar("a")])` (which renders to `[list a]`, a brace-free
string that parses back as a scalar). -/
theorem roundtrip_claim_counterexample :
    tcl_value2python_value (python_value2tcl_value (Value.scalar "")) =
      some (Value.scalar "\"\"") ∧
    Value.scalar "\"\"" ≠ Value.scalar "" ∧
    tcl_value2python_value (python_value2tcl_value (Value.list [Value.scalar "a"])) =
      some (Value.scalar "[list a]") ∧
    Value.scalar "[list a]" ≠ Value.list [Value.scalar "a"] :=
  ⟨by decide, by decide, by decide, by decide⟩

/-- C1 (amended): the one-directional round-trip
`parse_value(render_value(v)) == v` holds when `v` is a scalar whose text
is non-empty, contains no brace and no space character, and is unchanged
by whitespace stripping; it does not hold for all values. -/
theorem parse_render_roundtrip_plain_scalar (s : String) (h0 : s ≠ "")
    (h1 : lbrace ∉ s.data) (h2 : rbrace ∉ s.data) (h3 : ' ' ∉ s.data) (h4 : pyStrip s = s) :
    tcl_value2python_value (python_value2tcl_value (Value.scalar s)) = some (Value.scalar s) := by
  rw [render_scalar_plain s h0 h1 h2 h3, parse_nobrace s h1 h2, h4]

/-- C1 witness: the amended round-trip evaluated at `"abc"`. -/
theorem parse_render_roundtrip_plain_scalar_witness :
    tcl_value2python_value (python_value2tcl_value (Value.scalar "abc")) =
      some (Value.scalar "abc") :=
  parse_render_roundtrip_plain_scalar "abc" (by decide) (by decide) (by decide) (by decide)
    (by decide)

/-! ### C3 -/

/-- C3 counterexample: `"\x7ba\x7d \x7bb\x7d"` (i.e. two separate brace
groups) starts with an opening brace and ends with a closing brace, so
`tcl_value2python_value` strips the first character and scans the interior
(translate.py line 78), and the scan stops at the first unmatched closing
brace: the result is the one-element list `["a"]`, not a token-stream
parse containing both groups. -/
theorem outer_brace_counterexample :
    tcl_value2python_value "\x7ba\x7d \x7bb\x7d" = some (Value.list [Value.scalar "a"]) ∧
    some (Value.list [Value.scalar "a"]) ≠
      some (Value.list [Value.list [Value.scalar "a"], Value.list [Value.scalar "b"]]) :=
  ⟨by decide, by decide⟩

/-- C3 (amended): the outer-brace strip is taken whenever the trimmed text
merely starts with an opening brace and ends with a closing brace, whether
or not these form one wrapping pair; the interior scan stops at the first
unmatched closing brace, discarding the rest.  So `"\x7ba b\x7d"` yields
the flat list `[a, b]` (as the original claim says), but `"\x7ba\x7d
\x7bb\x7d"` — which satisfies the start/end test — yields only `["a"]`;
text with braces that fails the start/end test is parsed as a token
stream from position 0, e.g. `"a \x7bb\x7d"` yields `[a, [b]]`. -/
theorem brace_parse_examples :
    tcl_value2python_value "\x7ba b\x7d" =
      some (Value.list [Value.scalar "a", Value.scalar "b"]) ∧
    ("\x7ba\x7d \x7bb\x7d" : String).data.head? = some lbrace ∧
    ("\x7ba\x7d \x7bb\x7d" : String).data.getLast? = some rbrace ∧
    tcl_value2python_value "\x7ba\x7d \x7bb\x7d" = some (Value.list [Value.scalar "a"]) ∧
    tcl_value2python_value "a \x7bb\x7d" =
      some (Value.list [Value.scalar "a", Value.list [Value.scalar "b"]]) :=
  ⟨by decide, by decide, by decide, by decide, by decide⟩

/-! ### C7 -/

/-- The scanner never moves backwards: a successful `parse_list` returns an
index at or past its starting index. -/
theorem parse_list_le (s : List Char) :
    ∀ fuel i cur res r j, parse_list s fuel i cur res = some (r, j) → i ≤ j := by
  intro fuel
  induction fuel with
  | zero => intro i cur res r j h; simp [parse_list] at h
  | succ fuel ih =>
    intro i cur res r j h
    rw [parse_list] at h
    cases hg : s[i]? with
    | none =>
        simp only [hg, Option.some.injEq, Prod.mk.injEq] at h
        omega
    | some c =>
        simp only [hg] at h
        by_cases hb : c = lbrace
        · rw [if_pos hb] at h
          cases hn : parse_list s fuel (i + 1) [] [] with
          | none => simp only [hn] at h; cases h
          | some p =>
              obtain ⟨nested, newI⟩ := p
              simp only [hn] at h
              have h1 := ih _ _ _ _ _ h
              have h2 := ih _ _ _ _ _ hn
              omega
        · rw [if_neg hb] at h
          by_cases hr : c = rbrace
          · rw [if_pos hr] at h
            simp only [Option.some.injEq, Prod.mk.injEq] at h
            omega
          · rw [if_neg hr] at h
            by_cases hsc : c = ' ' ∧ cur ≠ []
            · rw [if_pos hsc] at h
              have h1 := ih _ _ _ _ _ h
              omega
            · rw [if_neg hsc] at h
              have h1 := ih _ _ _ _ _ h
              omega

/-- Fuel one more than the number of remaining characters always suffices:
the scan of `parse_list` terminates on every input, from any start. -/
theorem parse_list_total (s : List Char) :
    ∀ fuel i cur res, s.length - i + 1 ≤ fuel →
      ∃ r j, parse_list s fuel i cur res = some (r, j) ∧ i ≤ j := by
  intro fuel
  induction fuel with
  | zero => intro i cur res h; omega
  | succ fuel ih =>
    intro i cur res h
    cases hg : s[i]? with
    | none => exact ⟨flushTok cur res, i, by rw [parse_list, hg], Nat.le_refl i⟩
    | some c =>
        have hi : i < s.length := by
          by_contra hni
          rw [List.getElem?_eq_none (by omega)] at hg
          cases hg
        by_cases hb : c = lbrace
        · obtain ⟨nested, newI, hn, hle⟩ := ih (i + 1) [] [] (by omega)
          obtain ⟨r, j, hc, hle2⟩ :=
            ih (newI + 1) [] (flushTok cur res ++ [Value.list nested]) (by omega)
          refine ⟨r, j, ?_, by omega⟩
          rw [parse_list]
          simp only [hg]
          rw [if_pos hb]
          simp only [hn, hc]
        · by_cases hr : c = rbrace
          · refine ⟨flushTok cur res, i + 1, ?_, by omega⟩
            rw [parse_list]
            simp only [hg]
            rw [if_neg hb, if_pos hr]
          · by_cases hsc : c = ' ' ∧ cur ≠ []
            · obtain ⟨r, j, hc, hle⟩ := ih (i + 1) [] (flushTok cur res) (by omega)
              refine ⟨r, j, ?_, by omega⟩
              rw [parse_list]
              simp only [hg]
              rw [if_neg hb, if_neg hr, if_pos hsc, hc]
            · obtain ⟨r, j, hc, hle⟩ := ih (i + 1) (cur ++ [c]) res (by omega)
              refine ⟨r, j, ?_, by omega⟩
              rw [parse_list]
              simp only [hg]
              rw [if_neg hb, if_neg hr, if_neg hsc, hc]

/-- C7 (confirmed): `parse_value` terminates and returns a value on every
input string, including malformed brace nesting — and an unmatched closing
brace merely ends the current list level early, degrading to a partial
parse: `"a\x7d b"` (an unmatched closing brace after `a`) parses to
`["a"]`, the text after the unmatched brace being dropped rather than an
error being raised. -/
theorem parse_total_and_permissive :
    (∀ s : String, (tcl_value2python_value s).isSome = true) ∧
    tcl_value2python_value "a\x7d b" = some (Value.list [Value.scalar "a"]) := by
  constructor
  · intro s
    unfold tcl_value2python_value
    by_cases he : pyStripL s.data = []
    · simp [he]
    · by_cases hb : lbrace ∉ pyStripL s.data ∧ rbrace ∉ pyStripL s.data
      · simp [he, hb]
      · by_cases hw : (pyStripL s.data).head? = some lbrace ∧
            (pyStripL s.data).getLast? = some rbrace
        · obtain ⟨r, j, hp, _⟩ :=
            parse_list_total (pyStripL s.data) ((pyStripL s.data).length + 1) 1 [] [] (by omega)
          simp [he, hb, hw, hp]
        · obtain ⟨r, j, hp, _⟩ :=
            parse_list_total (pyStripL s.data) ((pyStripL s.data).length + 1) 0 [] [] (by omega)
          simp [he, hb, hw, hp]
  · decide

/-! ### C4 -/

theorem alGet_alSet_self {κ β : Type} [DecidableEq κ] (d : List (κ × β)) (k : κ) (v : β) :
    alGet (alSet d k v) k = some v := by
  induction d with
  | nil => simp [alGet, alSet]
  | cons kv rest ih =>
      obtain ⟨k1, v1⟩ := kv
      by_cases hk : k1 = k
      · simp [alGet, alSet, hk]
      · simp [alGet, alSet, hk, ih]

theorem alGet_alSet_ne {κ β : Type} [DecidableEq κ] (d : List (κ × β)) (k k2 : κ) (v : β)
    (h : k2 ≠ k) : alGet (alSet d k v) k2 = alGet d k2 := by
  induction d with
  | nil => simp [alGet, alSet, Ne.symm h]
  | cons kv rest ih =>
      obtain ⟨k1, v1⟩ := kv
      by_cases hk : k1 = k
      · subst hk
        simp [alGet, alSet, Ne.symm h]
      · by_cases hk2 : k1 = k2
        · simp [alGet, alSet, hk, hk2, h]
        · simp [alGet, alSet, hk, hk2, ih]

theorem alGet_eq_none {κ β : Type} [DecidableEq κ] (d : List (κ × β)) (k : κ)
    (h : k ∉ alKeys d) : alGet d k = none := by
  induction d with
  | nil => rfl
  | cons kv rest ih =>
      obtain ⟨k1, v1⟩ := kv
      have h1 : ¬ k1 = k := fun he => h (by simp [alKeys, he])
      have h2 : k ∉ alKeys rest := fun hm => h (by simp [alKeys]; exact Or.inr (by simpa [alKeys] using hm))
      simp [alGet, h1, ih h2]

theorem mergeLookupSpec_none_right {α : Type} (ow : Bool) (x : Option (Tree α)) :
    mergeLookupSpec ow x none = x := by
  cases x with
  | none => rfl
  | some t => cases t <;> rfl

/-- The per-key contract of `merge_dicts`, proved by folding over `dict2`. -/
theorem merge_dicts_lookup_aux {α : Type} (ow : Bool) :
    ∀ (d2 d1 : AList α), nodupKeys d2 →
      ∀ k, alGet (merge_dicts d1 d2 ow) k = mergeLookupSpec ow (alGet d1 k) (alGet d2 k) := by
  intro d2
  induction d2 with
  | nil =>
      intro d1 _ k
      rw [merge_dicts]
      rw [show alGet ([] : AList α) k = none from rfl, mergeLookupSpec_none_right]
  | cons kv rest ih =>
      obtain ⟨k2, v2⟩ := kv
      intro d1 hnd k
      have hh : (k2 :: alKeys rest).Nodup := by simpa [nodupKeys, alKeys] using hnd
      have hk2 : k2 ∉ alKeys rest := (List.nodup_cons.mp hh).1
      have hnd' : nodupKeys rest := (List.nodup_cons.mp hh).2
      by_cases hkk : k = k2
      · subst hkk
        have hr0 : alGet rest k = none := alGet_eq_none rest k hk2
        cases v2 with
        | node s2 =>
            rw [merge_dicts, ih _ hnd' k, hr0, mergeLookupSpec_none_right]
            cases hv : alGet d1 k with
            | none => simp [alGet, hv, mergeLookupSpec, alGet_alSet_self]
            | some t =>
                cases t with
                | leaf x => cases ow <;> simp [alGet, hv, mergeLookupSpec, alGet_alSet_self]
                | node s1 => simp [alGet, hv, mergeLookupSpec, alGet_alSet_self]
        | leaf x =>
            rw [merge_dicts, ih _ hnd' k, hr0, mergeLookupSpec_none_right]
            cases hv : alGet d1 k with
            | none => simp [alGet, hv, mergeLookupSpec, alGet_alSet_self]
            | some t =>
                cases t with
                | leaf y => cases ow <;> simp [alGet, hv, mergeLookupSpec, alGet_alSet_self]
                | node s1 => cases ow <;> simp [alGet, hv, mergeLookupSpec, alGet_alSet_self]
      · have hne : ¬ k2 = k := fun he => hkk he.symm
        cases v2 with
        | node s2 =>
            rw [merge_dicts, ih _ hnd' k]
            have hr : alGet ((k2, Tree.node s2) :: rest) k = alGet rest k := by
              simp [alGet, hne]
            rw [hr]
            cases hv : alGet d1 k2 with
            | none => simp [hv, alGet_alSet_ne _ _ _ _ hkk]
            | some t =>
                cases t with
                | leaf x => cases ow <;> simp [hv, alGet_alSet_ne _ _ _ _ hkk]
                | node s1 => simp [hv, alGet_alSet_ne _ _ _ _ hkk]
        | leaf x =>
            rw [merge_dicts, ih _ hnd' k]
            have hr : alGet ((k2, Tree.leaf x) :: rest) k = alGet rest k := by
              simp [alGet, hne]
            rw [hr]
            cases hv : alGet d1 k2 with
            | none => simp [hv, alGet_alSet_ne _ _ _ _ hkk]
            | some t =>
                cases t with
                | leaf y => cases ow <;> simp [hv, alGet_alSet_ne _ _ _ _ hkk]
                | node s1 => cases ow <;> simp [hv, alGet_alSet_ne _ _ _ _ hkk]

/-- C4 (confirmed): `merge_dicts(base, incoming, overwrite)` maps each key
per the contract: both sides nested dicts → recursive merge with the same
flag; otherwise the incoming entry wins exactly when the key is absent
from the base or `overwrite` is true, the base entry is kept when the key
exists and `overwrite` is false; keys only in the base are retained.  And
the docstring example: `merge({a: 1, b: {c: 2}}, {b: {d: 3}, e: 4}, true)
= {a: 1, b: {c: 2, d: 3}, e: 4}`. -/
theorem merge_dicts_lookup_characterization :
    (∀ (α : Type) (d1 d2 : AList α) (ow : Bool), nodupKeys d2 →
        ∀ k, alGet (merge_dicts d1 d2 ow) k = mergeLookupSpec ow (alGet d1 k) (alGet d2 k)) ∧
    merge_dicts exBase exInc true = exOut :=
  ⟨fun _ d1 d2 ow h k => merge_dicts_lookup_aux ow d2 d1 h k,
   by simp [exBase, exInc, exOut, merge_dicts, alGet, alSet]⟩

/-- C4 witness: the characterization applied to the docstring example at
keys `"b"` (recursive-merge case) and `"e"` (key only in incoming). -/
theorem merge_dicts_lookup_characterization_witness :
    (alGet (merge_dicts exBase exInc true) "b" =
        mergeLookupSpec true (alGet exBase "b") (alGet exInc "b") ∧
      mergeLookupSpec true (alGet exBase "b") (alGet exInc "b") =
        some (Tree.node (merge_dicts [("c", Tree.leaf 2)] [("d", Tree.leaf 3)] true))) ∧
    (alGet (merge_dicts exBase exInc true) "e" =
        mergeLookupSpec true (alGet exBase "e") (alGet exInc "e") ∧
      mergeLookupSpec true (alGet exBase "e") (alGet exInc "e") = some (Tree.leaf 4)) :=
  ⟨⟨merge_dicts_lookup_characterization.1 Nat exBase exInc true (by decide) "b", rfl⟩,
   ⟨merge_dicts_lookup_characterization.1 Nat exBase exInc true (by decide) "e", rfl⟩⟩

/-! ### C5 -/

theorem alSet_append {κ β : Type} [DecidableEq κ] (d : List (κ × β)) (k : κ) (v : β)
    (h : k ∉ alKeys d) : alSet d k v = d ++ [(k, v)] := by
  induction d with
  | nil => rfl
  | cons kv rest ih =>
      obtain ⟨k1, v1⟩ := kv
      have h1 : ¬ k1 = k := fun he => h (by simp [alKeys, he])
      have h2 : k ∉ alKeys rest := fun hm => h (by
        simp [alKeys]
        exact Or.inr (by simpa [alKeys] using hm))
      simp [alSet, h1, ih h2]

/-- Merging a dict whose keys are all fresh appends its entries. -/
theorem merge_dicts_append {α : Type} :
    ∀ (d2 d1 : AList α), (∀ k ∈ alKeys d2, k ∉ alKeys d1) → nodupKeys d2 →
      merge_dicts d1 d2 true = d1 ++ d2 := by
  intro d2
  induction d2 with
  | nil => intro d1 _ _; rw [merge_dicts]; simp
  | cons kv rest ih =>
      obtain ⟨k, v⟩ := kv
      intro d1 hfresh hnd
      have hh : (k :: alKeys rest).Nodup := by simpa [nodupKeys, alKeys] using hnd
      have hk : k ∉ alKeys rest := (List.nodup_cons.mp hh).1
      have hnd' : nodupKeys rest := (List.nodup_cons.mp hh).2
      have hkd1 : k ∉ alKeys d1 := hfresh k (List.mem_cons_self k (alKeys rest))
      have hget : alGet d1 k = none := alGet_eq_none d1 k hkd1
      have hfresh' : ∀ k2 ∈ alKeys rest, k2 ∉ alKeys (d1 ++ [(k, v)]) := by
        intro k2 hk2 hmem
        have hne : k2 ≠ k := fun he => hk (he ▸ hk2)
        rw [alKeys, List.map_append, List.mem_append] at hmem
        rcases hmem with hm1 | hm2
        · exact hfresh k2 (List.mem_cons_of_mem k hk2) hm1
        · simp at hm2
          exact hne hm2
      cases v with
      | node s2 =>
          rw [merge_dicts, hget, alSet_append d1 k _ hkd1, ih _ hfresh' hnd']
          simp
      | leaf x =>
          rw [merge_dicts, hget, alSet_append d1 k _ hkd1, ih _ hfresh' hnd']
          simp

/-- Merging into the empty dict (with `overwrite`) reproduces the dict. -/
theorem merge_dicts_nil_left {α : Type} (d : AList α) (h : nodupKeys d) :
    merge_dicts [] d true = d := by
  have := merge_dicts_append d [] (by simp [alKeys]) h
  simpa using this

/-- The merged component of the aggregation loop is the left fold of
`merge_dicts` with `overwrite` over the remaining inputs. -/
theorem aggLoop_merged {α : Type} (n : Nat) :
    ∀ (inputs : List (AList α)) (i : Nat) (merged : AList α)
      (srcs : List (String × AList α)), (∀ d ∈ inputs, nodupKeys d) →
      (aggLoop n inputs i merged srcs).1 =
        inputs.foldl (fun m d => merge_dicts m d true) merged := by
  intro inputs
  induction inputs with
  | nil => intro i merged srcs _; rfl
  | cons d rest ih =>
      intro i merged srcs h
      have hd : nodupKeys d := h d (by simp)
      have hrest : ∀ d2 ∈ rest, nodupKeys d2 := fun d2 hm => h d2 (by simp [hm])
      rw [aggLoop, List.foldl_cons]
      by_cases hm : merged.isEmpty
      · have hme : merged = [] := by
          cases merged with
          | nil => rfl
          | cons a b => simp [List.isEmpty] at hm
        subst hme
        rw [if_pos hm, ih _ _ _ hrest, merge_dicts_nil_left d hd]
      · rw [if_neg hm, ih _ _ _ hrest]

/-- C5 counterexample: with a single literal input, the first (and only)
input is labeled `"Fixed Appendix info"`, not `"Basic Appendix info"`: the
last-input rule is applied after the first-input rule and overrides it
(translate.py lines 429-432). -/
theorem single_input_label_counterexample :
    (process_config_inputs [[("x", Tree.leaf (1 : Nat))]]).2 =
      [("Fixed Appendix info", [("x", Tree.leaf 1)])] ∧
    "Fixed Appendix info" ≠ "Basic Appendix info" :=
  ⟨rfl, by decide⟩

/-- C5 (amended): aggregation of literal tree inputs labels the first
input `"Basic Appendix info"` when there are at least two inputs (a sole
input is labeled `"Fixed Appendix info"`, the last-input rule taking
precedence), the last input `"Fixed Appendix info"`, and every other input
`"Appendix info apply"`; the merged result is the left fold of
`merge_dicts` with `overwrite` over the inputs in order; and the example
`[{var1: value1, var2: value2}, {var2: value2b}]` aggregates to
`{var1: value1, var2: value2b}` with the two source trees labeled
`"Basic Appendix info"` and `"Fixed Appendix info"`. -/
theorem process_config_inputs_labels_and_fold :
    (∀ n : Nat, 2 ≤ n → labelFor 0 n = "Basic Appendix info") ∧
    (∀ n : Nat, labelFor (n - 1) n = "Fixed Appendix info") ∧
    (∀ i n : Nat, 0 < i → i < n - 1 → labelFor i n = "Appendix info apply") ∧
    (∀ (α : Type) (inputs : List (AList α)), (∀ d ∈ inputs, nodupKeys d) →
        (process_config_inputs inputs).1 =
          inputs.foldl (fun m d => merge_dicts m d true) []) ∧
    process_config_inputs exAggIn =
      ([("var1", Tree.leaf "value1"), ("var2", Tree.leaf "value2b")],
       [("Basic Appendix info", [("var1", Tree.leaf "value1"), ("var2", Tree.leaf "value2")]),
        ("Fixed Appendix info", [("var2", Tree.leaf "value2b")])]) := by
  refine ⟨?_, ?_, ?_, ?_, ?_⟩
  · intro n hn
    simp only [labelFor]
    rw [if_neg (by omega : ¬ (0 : Nat) = n - 1)]
    simp
  · intro n
    simp [labelFor]
  · intro i n h1 h2
    simp only [labelFor]
    rw [if_neg (by omega : ¬ i = n - 1), if_neg (by omega : ¬ i = 0)]
  · intro α inputs h
    exact aggLoop_merged inputs.length inputs 0 [] [] h
  · simp [exAggIn, process_config_inputs, aggLoop, labelFor, merge_dicts, alGet, alSet]

/-- C5 witness: the labeling rules applied at two inputs, and the fold law
applied to the aggregation example. -/
theorem process_config_inputs_labels_and_fold_witness :
    labelFor 0 2 = "Basic Appendix info" ∧
    labelFor 1 2 = "Fixed Appendix info" ∧
    (process_config_inputs exAggIn).1 =
      exAggIn.foldl (fun m d => merge_dicts m d true) [] :=
  ⟨process_config_inputs_labels_and_fold.1 2 (by omega),
   process_config_inputs_labels_and_fold.2.1 2,
   process_config_inputs_labels_and_fold.2.2.2.1 String exAggIn (by decide)⟩

/-! ### C9 -/

theorem lookupPath_head_congr {α : Type} (d1 d2 : AList α) (k : String) (ps : List String)
    (h : alGet d1 k = alGet d2 k) : lookupPath d1 (k :: ps) = lookupPath d2 (k :: ps) := by
  cases ps with
  | nil => simpa [lookupPath] using h
  | cons p pr => simp [lookupPath, h]

theorem lookupPath_nil_ne {α : Type} (p : List String) (hp : p ≠ []) :
    lookupPath ([] : AList α) p = none := by
  cases p with
  | nil => exact absurd rfl hp
  | cons p0 ps => cases ps <;> simp [lookupPath, alGet]

/-- When the walk of `keys[:-1]` hits a terminal value, `set_nested_dict`
raises (returns `none`). -/
theorem set_nested_dict_conflict {α : Type} :
    ∀ (keys : List String) (d : AList α) (v : Tree α),
      conflictFree d keys = false → set_nested_dict d keys v = none := by
  intro keys
  induction keys with
  | nil => intro d v _; rfl
  | cons k rest ih =>
      intro d v h
      cases rest with
      | nil => simp [conflictFree] at h
      | cons r rs =>
          simp only [conflictFree] at h
          simp only [set_nested_dict]
          cases hv : alGet d k with
          | none =>
              simp only [hv] at h
              simp [ih _ _ h]
          | some t =>
              cases t with
              | leaf x => simp [hv]
              | node sub =>
                  simp only [hv] at h
                  simp [hv, ih _ _ h]

/-- When the walk is conflict-free, `set_nested_dict` creates the missing
intermediate dicts, writes the leaf at the full path, and leaves every
diverging path unchanged. -/
theorem set_nested_dict_ok {α : Type} :
    ∀ (keys : List String) (d : AList α) (v : Tree α),
      keys ≠ [] → conflictFree d keys = true →
      ∃ d', set_nested_dict d keys v = some d' ∧
        lookupPath d' keys = some v ∧
        ∀ p : List String, p ≠ [] → ¬ p <+: keys → ¬ keys <+: p →
          lookupPath d' p = lookupPath d p := by
  intro keys
  induction keys with
  | nil => intro d v h _; exact absurd rfl h
  | cons k rest ih =>
      intro d v _ hcf
      cases rest with
      | nil =>
          refine ⟨alSet d k v, rfl, by simp [lookupPath, alGet_alSet_self], ?_⟩
          intro p hp hpre hsuf
          cases p with
          | nil => exact absurd rfl hp
          | cons p0 ps =>
              have hne : p0 ≠ k := fun he => hsuf (he ▸ ⟨ps, rfl⟩)
              exact lookupPath_head_congr _ _ _ _ (alGet_alSet_ne d k p0 v hne)
      | cons r rs =>
          simp only [conflictFree] at hcf
          cases hv : alGet d k with
          | some t =>
              cases t with
              | leaf x => simp [hv] at hcf
              | node sub =>
                  simp only [hv] at hcf
                  obtain ⟨sub', hset, hlook, hframe⟩ := ih sub v (by simp) hcf
                  refine ⟨alSet d k (Tree.node sub'), ?_, ?_, ?_⟩
                  · simp only [set_nested_dict]
                    simp [hv, hset]
                  · simp [lookupPath, alGet_alSet_self, hlook]
                  · intro p hp hpre hsuf
                    cases p with
                    | nil => exact absurd rfl hp
                    | cons p0 ps =>
                        by_cases hpk : p0 = k
                        · subst hpk
                          cases ps with
                          | nil => exact absurd ⟨r :: rs, rfl⟩ hpre
                          | cons q qs =>
                              have hpre' : ¬ (q :: qs) <+: (r :: rs) := fun hh =>
                                hpre (List.cons_prefix_cons.mpr ⟨rfl, hh⟩)
                              have hsuf' : ¬ (r :: rs) <+: (q :: qs) := fun hh =>
                                hsuf (List.cons_prefix_cons.mpr ⟨rfl, hh⟩)
                              rw [show lookupPath (alSet d p0 (Tree.node sub')) (p0 :: q :: qs) =
                                    lookupPath sub' (q :: qs) by
                                  simp [lookupPath, alGet_alSet_self]]
                              rw [show lookupPath d (p0 :: q :: qs) = lookupPath sub (q :: qs) by
                                  simp [lookupPath, hv]]
                              exact hframe (q :: qs) (by simp) hpre' hsuf'
                        · exact lookupPath_head_congr _ _ _ _ (alGet_alSet_ne d k p0 _ hpk)
          | none =>
              simp only [hv] at hcf
              obtain ⟨sub', hset, hlook, hframe⟩ := ih [] v (by simp) hcf
              refine ⟨alSet d k (Tree.node sub'), ?_, ?_, ?_⟩
              · simp only [set_nested_dict]
                simp [hv, hset]
              · simp [lookupPath, alGet_alSet_self, hlook]
              · intro p hp hpre hsuf
                cases p with
                | nil => exact absurd rfl hp
                | cons p0 ps =>
                    by_cases hpk : p0 = k
                    · subst hpk
                      cases ps with
                      | nil => exact absurd ⟨r :: rs, rfl⟩ hpre
                      | cons q qs =>
                          have hpre' : ¬ (q :: qs) <+: (r :: rs) := fun hh =>
                            hpre (List.cons_prefix_cons.mpr ⟨rfl, hh⟩)
                          have hsuf' : ¬ (r :: rs) <+: (q :: qs) := fun hh =>
                            hsuf (List.cons_prefix_cons.mpr ⟨rfl, hh⟩)
                          rw [show lookupPath (alSet d p0 (Tree.node sub')) (p0 :: q :: qs) =
                                lookupPath sub' (q :: qs) by
                              simp [lookupPath, alGet_alSet_self]]
                          rw [show lookupPath d (p0 :: q :: qs) = none by
                              simp [lookupPath, hv]]
                          rw [hframe (q :: qs) (by simp) hpre' hsuf']
                          exact lookupPath_nil_ne (q :: qs) (by simp)
                    · exact lookupPath_head_congr _ _ _ _ (alGet_alSet_ne d k p0 _ hpk)

/-- C9 (confirmed): for a key path of length at least 2, if an intermediate
segment already holds a terminal value, `set_nested_dict` raises (returns
`none`) rather than silently replacing it; when every intermediate segment
is absent or holds a dict, it creates the missing intermediate dicts, sets
the leaf at the path, and leaves every path that neither extends nor is
extended by the written path unchanged. -/
theorem set_nested_dict_conflict_and_success :
    ∀ (α : Type) (d : AList α) (keys : List String) (v : Tree α), 2 ≤ keys.length →
      (conflictFree d keys = false → set_nested_dict d keys v = none) ∧
      (conflictFree d keys = true →
        ∃ d', set_nested_dict d keys v = some d' ∧ lookupPath d' keys = some v ∧
          ∀ p : List String, p ≠ [] → ¬ p <+: keys → ¬ keys <+: p →
            lookupPath d' p = lookupPath d p) :=
  fun _ d keys v h =>
    ⟨fun hc => set_nested_dict_conflict keys d v hc,
     fun hc => set_nested_dict_ok keys d v (by rintro rfl; simp at h) hc⟩

/-- C9 witness: the conflict case at `d = {a: 0}`, `keys = [a, b]`, and the
success case at the empty dict. -/
theorem set_nested_dict_conflict_and_success_witness :
    set_nested_dict [("a", Tree.leaf (0 : Nat))] ["a", "b"] (Tree.leaf 1) = none ∧
    ∃ d', set_nested_dict ([] : AList Nat) ["a", "b"] (Tree.leaf 1) = some d' ∧
      lookupPath d' ["a", "b"] = some (Tree.leaf 1) ∧
      ∀ p : List String, p ≠ [] → ¬ p <+: ["a", "b"] → ¬ ["a", "b"] <+: p →
        lookupPath d' p = lookupPath ([] : AList Nat) p :=
  ⟨(set_nested_dict_conflict_and_success Nat [("a", Tree.leaf 0)] ["a", "b"] (Tree.leaf 1)
      (by decide)).1 (by decide),
   (set_nested_dict_conflict_and_success Nat [] ["a", "b"] (Tree.leaf 1) (by decide)).2
     (by decide)⟩

/-! ### C6 -/

theorem freshA_le_lookup : ∀ (h : Heap) (a : Nat), freshA h ≤ a → hLookup h a = none := by
  intro h
  induction h with
  | nil => intro a _; rfl
  | cons bo rest ih =>
      intro a ha
      obtain ⟨b, o⟩ := bo
      have hf : max (b + 1) (freshA rest) ≤ a := ha
      have hb : ¬ b = a := by omega
      have hr : hLookup rest a = none := ih a (by omega)
      simp only [hLookup, alGet] at hr ⊢
      simp [hb, hr]

theorem hLookup_freshA (h : Heap) : hLookup h (freshA h) = none :=
  freshA_le_lookup h (freshA h) (Nat.le_refl _)

/-- After a store to the (distinct) cell `c`, the loop still preserves any
other initially allocated address: the common step of the loop cases. -/
theorem mergeLoop_set_step (fuel : Nat)
    (ihB : ∀ (fs : List (String × Nat)) (h : Heap) (c : Nat) (ow : Bool) (h2 : Heap),
        mergeLoop fuel h c fs ow = some h2 →
        ∀ a, (hLookup h a).isSome = true → a ≠ c → hLookup h2 a = hLookup h a)
    (h : Heap) (c : Nat) (o : Obj) (rest : List (String × Nat)) (ow : Bool) (h2 : Heap)
    (hm : mergeLoop fuel (hSet h c o) c rest ow = some h2)
    (a : Nat) (ha : (hLookup h a).isSome = true) (hac : a ≠ c) :
    hLookup h2 a = hLookup h a := by
  have hstep : hLookup (hSet h c o) a = hLookup h a := alGet_alSet_ne h c a o hac
  have ha2 : (hLookup (hSet h c o) a).isSome = true := by rw [hstep]; exact ha
  rw [ihB rest _ _ _ _ hm a ha2 hac, hstep]

/-- The frame property of the heap-level merge, for `mergeH` and its item
loop simultaneously, by induction on the fuel: a successful merge changes
no initially allocated address, and returns a fresh address; the loop
changes nothing outside its result cell `c`. -/
theorem merge_frame_all : ∀ fuel : Nat,
    (∀ (h : Heap) (a1 a2 : Nat) (ow : Bool) (r : Nat) (h2 : Heap),
        mergeH fuel h a1 a2 ow = some (r, h2) →
        (∀ a, (hLookup h a).isSome = true → hLookup h2 a = hLookup h a) ∧
        hLookup h r = none) ∧
    (∀ (fs : List (String × Nat)) (h : Heap) (c : Nat) (ow : Bool) (h2 : Heap),
        mergeLoop fuel h c fs ow = some h2 →
        ∀ a, (hLookup h a).isSome = true → a ≠ c → hLookup h2 a = hLookup h a) := by
  intro fuel
  induction fuel with
  | zero =>
      constructor
      · intro h a1 a2 ow r h2 hm
        simp [mergeH] at hm
      · intro fs h c ow h2 hm a ha hac
        cases fs with
        | nil =>
            simp [mergeLoop] at hm
            rw [← hm]
        | cons f fs => simp [mergeLoop] at hm
  | succ fuel ih =>
      obtain ⟨ihA, ihB⟩ := ih
      constructor
      · intro h a1 a2 ow r h2 hm
        rw [mergeH] at hm
        cases h1 : hLookup h a1 with
        | none => simp [h1] at hm
        | some o1 =>
            cases o1 with
            | leaf n => simp [h1] at hm
            | dict f1 =>
                cases h2h : hLookup h a2 with
                | none => simp [h1, h2h] at hm
                | some o2 =>
                    cases o2 with
                    | leaf n => simp [h1, h2h] at hm
                    | dict f2 =>
                        simp only [h1, h2h] at hm
                        cases hl : mergeLoop fuel (hSet h (freshA h) (Obj.dict f1))
                            (freshA h) f2 ow with
                        | none => simp [hl] at hm
                        | some hh =>
                            simp only [hl, Option.map_some'] at hm
                            injection hm with hm1
                            injection hm1 with hmr hmh
                            subst hmr
                            subst hmh
                            constructor
                            · intro a ha
                              have hano : a ≠ freshA h := by
                                intro he
                                rw [he, hLookup_freshA] at ha
                                simp at ha
                              exact mergeLoop_set_step fuel ihB h (freshA h) (Obj.dict f1)
                                f2 ow hh hl a ha hano
                            · exact hLookup_freshA h
      · intro fs h c ow h2 hm a ha hac
        cases fs with
        | nil =>
            simp [mergeLoop] at hm
            rw [← hm]
        | cons kv rest =>
            obtain ⟨k, vaddr⟩ := kv
            rw [mergeLoop] at hm
            cases hc : hLookup h c with
            | none => simp [hc] at hm
            | some oc =>
                cases oc with
                | leaf n => simp [hc] at hm
                | dict cf =>
                    simp only [hc] at hm
                    cases hgk : alGet cf k with
                    | none =>
                        simp only [hgk] at hm
                        exact mergeLoop_set_step fuel ihB h c _ rest ow h2 hm a ha hac
                    | some b =>
                        simp only [hgk] at hm
                        cases hb : hLookup h b with
                        | none =>
                            simp only [hb] at hm
                            cases ow with
                            | true =>
                                rw [if_pos rfl] at hm
                                exact mergeLoop_set_step fuel ihB h c _ rest true h2 hm a ha hac
                            | false =>
                                rw [if_neg (show ¬ (false = true) by simp)] at hm
                                exact ihB rest _ _ _ _ hm a ha hac
                        | some ob =>
                            cases ob with
                            | leaf n =>
                                simp only [hb] at hm
                                cases ow with
                                | true =>
                                    rw [if_pos rfl] at hm
                                    exact mergeLoop_set_step fuel ihB h c _ rest true h2 hm
                                      a ha hac
                                | false =>
                                    rw [if_neg (show ¬ (false = true) by simp)] at hm
                                    exact ihB rest _ _ _ _ hm a ha hac
                            | dict fb =>
                                cases hvd : hLookup h vaddr with
                                | none =>
                                    simp only [hb, hvd] at hm
                                    cases ow with
                                    | true =>
                                        rw [if_pos rfl] at hm
                                        exact mergeLoop_set_step fuel ihB h c _ rest true h2 hm
                                          a ha hac
                                    | false =>
                                        rw [if_neg (show ¬ (false = true) by simp)] at hm
                                        exact ihB rest _ _ _ _ hm a ha hac
                                | some ov =>
                                    cases ov with
                                    | leaf n =>
                                        simp only [hb, hvd] at hm
                                        cases ow with
                                        | true =>
                                            rw [if_pos rfl] at hm
                                            exact mergeLoop_set_step fuel ihB h c _ rest true
                                              h2 hm a ha hac
                                        | false =>
                                            rw [if_neg (show ¬ (false = true) by simp)] at hm
                                            exact ihB rest _ _ _ _ hm a ha hac
                                    | dict fv =>
                                        simp only [hb, hvd] at hm
                                        cases hmh : mergeH fuel h b vaddr ow with
                                        | none => simp [hmh] at hm
                                        | some p =>
                                            obtain ⟨r1, hh1⟩ := p
                                            simp only [hmh] at hm
                                            have hframe1 := (ihA h b vaddr ow r1 hh1 hmh).1
                                            have hcc : hLookup hh1 c = some (Obj.dict cf) := by
                                              rw [hframe1 c (by rw [hc]; rfl)]
                                              exact hc
                                            simp only [hcc] at hm
                                            have ha1 : (hLookup hh1 a).isSome = true := by
                                              rw [hframe1 a ha]
                                              exact ha
                                            have hres := mergeLoop_set_step fuel ihB hh1 c
                                              (Obj.dict (alSet cf k r1)) rest ow h2 hm a ha1 hac
                                            exact hres.trans (hframe1 a ha)

/-- C6 (confirmed): in the heap model of `merge_dicts`, a successful merge
leaves every initially allocated object untouched — it mutates only the
freshly allocated result cells, so neither argument dict (nor any of their
sub-dicts) is mutated in place — and the returned address is a new object,
absent from the initial heap. -/
theorem merge_heap_frame (fuel : Nat) (h : Heap) (a1 a2 : Nat) (ow : Bool) (r : Nat)
    (h2 : Heap) (hm : mergeH fuel h a1 a2 ow = some (r, h2)) :
    (∀ a, (hLookup h a).isSome = true → hLookup h2 a = hLookup h a) ∧
    hLookup h r = none :=
  (merge_frame_all fuel).1 h a1 a2 ow r h2 hm

/-- C6 witness: merging the two dict objects of `exHeap` (addresses 0 and
2) allocates cell 3 and leaves addresses 0, 1, 2 exactly as they were. -/
theorem merge_heap_frame_witness :
    hLookup exHeapOut 0 = hLookup exHeap 0 ∧
    hLookup exHeapOut 1 = hLookup exHeap 1 ∧
    hLookup exHeapOut 2 = hLookup exHeap 2 ∧
    hLookup exHeap 3 = none :=
  ⟨(merge_heap_frame 2 exHeap 0 2 true 3 exHeapOut rfl).1 0 rfl,
   (merge_heap_frame 2 exHeap 0 2 true 3 exHeapOut rfl).1 1 rfl,
   (merge_heap_frame 2 exHeap 0 2 true 3 exHeapOut rfl).1 2 rfl,
   (merge_heap_frame 2 exHeap 0 2 true 3 exHeapOut rfl).2⟩

/-! ### C10 -/

/-- Every `process_dict` result is sorted: it is returned through
`sorted(lines)` (translate.py line 294), with Python's string order being
the lexicographic order on code points, matched by `String`'s order. -/
theorem sorted_process_dict (d : AList Value) (pre : String) :
    List.Sorted (· ≤ ·) (process_dict d pre) := by
  have hs := @List.sorted_mergeSort String (fun a b : String => a ≤ b)
    (fun a b c hab hbc => by
      simp only [decide_eq_true_eq] at *
      exact le_trans hab hbc)
    (fun a b => by
      simp only [Bool.or_eq_true, decide_eq_true_eq]
      exact le_total a b)
    (process_lines d pre)
  exact hs.imp (fun h => by simpa using h)

/-- C10 (confirmed): the `set` statement lines `dict_to_tcl` writes — for
the whole document, and within each per-source section when `with_source`
is true — appear in lexicographically sorted order of the statement text,
regardless of the insertion order of the dict's keys. -/
theorem dict_to_tcl_lines_sorted :
    (∀ data : AList Value, List.Sorted (· ≤ ·) (dict_to_tcl_lines data)) ∧
    (∀ (data : List (String × AList Value)) (sec : List String),
        sec ∈ dict_to_tcl_source_sections data → List.Sorted (· ≤ ·) sec) := by
  constructor
  · intro data
    exact sorted_process_dict data ""
  · intro data sec hmem
    simp only [dict_to_tcl_source_sections, List.mem_map] at hmem
    obtain ⟨sd, _, rfl⟩ := hmem
    exact sorted_process_dict sd.2 ""

/-- C10 witness: the per-source conjunct applied to a concrete one-source
document whose keys are inserted in reverse order. -/
theorem dict_to_tcl_lines_sorted_witness :
    List.Sorted (· ≤ ·)
      (process_dict [("z", Tree.leaf (Value.scalar "1")),
                     ("a", Tree.leaf (Value.scalar "2"))] "") :=
  dict_to_tcl_lines_sorted.2
    [("src", [("z", Tree.leaf (Value.scalar "1")), ("a", Tree.leaf (Value.scalar "2"))])]
    (process_dict [("z", Tree.leaf (Value.scalar "1")),
                   ("a", Tree.leaf (Value.scalar "2"))] "")
    (by simp [dict_to_tcl_source_sections])

end Translate

